import Mathlib

/-!
Verification of the hammer error-correction core of the SPAdes repository.

The first part embeds src/assembler/src/hammer/read_corrector.cpp
(ReadCorrector::CorrectReadRight and ReadCorrector::CorrectOneRead) as
executable Lean functions.  Reads and k-mers are lists of characters,
penalties are integers (in the source they are doubles, but every value the
search ever produces is an integer: the penalty starts at 0.0 and only ever
decreases by exactly 0.0 or 1.0, and IEEE doubles represent such small
integers and their comparisons exactly).  size_t / uint16_t wrap-around that
the source relies on is modelled with explicit `% 2^64` / `% 2^16`
arithmetic.

The k-mer store (kmer_data.hpp / kmer_stat.hpp), the k-mer window generator
(valid_kmer_generator.hpp), is_nucl and ReverseComplement are declared but
not defined in the sources available here; those few helpers are modelled
from the specification and are marked as such in their doc comments.

The second part embeds the consensus ("center") stage of
src/assembler/src/hammer-it/main.cpp.
-/

namespace Hammer

/-- 2^64, the modulus of size_t arithmetic on the platform of the source. -/
def U64 : Nat := 18446744073709551616

/-- 2^16, the modulus of uint16_t arithmetic. -/
def U16 : Nat := 65536

/-- (uint16_t)-1, the sentinel the source puts in the four correction-position
slots before any correction is recorded. -/
def SENT : Nat := 65535

/-- size_t subtraction a - b with wrap-around modulo 2^64. -/
def sub64 (a b : Nat) : Nat := (a + (U64 - b % U64)) % U64

/-- Modelled from the spec: is_nucl (declared in the missing
sequence/nucl.hpp) recognises the 4-letter alphabet A, C, G, T. -/
def is_nucl (c : Char) : Bool := c == 'A' || c == 'C' || c == 'G' || c == 'T'

/-- Modelled from the spec: the 4-letter alphabet in the order of the
2-bit nucleotide codes 0,1,2,3 that the source's loop `for cc = 0..3`
together with `nucl(cc)` walks through. -/
def nuclChars : List Char := ['A', 'C', 'G', 'T']

/-- Modelled from the spec: nucleotide complement used by ReverseComplement
(declared in the missing read.hpp). -/
def compl1 (c : Char) : Char :=
  if c == 'A' then 'T' else if c == 'T' then 'A'
  else if c == 'C' then 'G' else if c == 'G' then 'C' else c

/-- Modelled from the spec: ReverseComplement of a sequence (reverse the
sequence and complement every symbol). -/
def RC (s : List Char) : List Char := (s.reverse).map compl1

/-- Modelled from the spec: the observable interface of the k-mer store
(kmer_data.hpp is not among the sources).  `present k` says
checking_seq_idx(k) != -1ULL, and `good k` says the KMerStat record of k has
its good flag set (a k-mer that is not present is never good). -/
structure KMerData where
  present : List Char → Bool
  good : List Char → Bool

/-- A k-mer is a window of K characters of a read; KMer(seq, pos, K) takes the
K characters starting at pos.  The single-symbol shift (KMer << c) drops the
leftmost symbol and appends c at the right. -/
def shiftK (k : List Char) (c : Char) : List Char := k.drop 1 ++ [c]

/-- The search state of CorrectReadRight: struct state of
read_corrector.cpp (position reached, current string, accumulated penalty,
last emitted k-mer, ring of the last four correction positions). -/
structure SState where
  pos : Nat
  str : List Char
  penalty : Int
  last : List Char
  cpos : List Nat
deriving DecidableEq

/-- The initial content of the correction-position ring: four (uint16_t)-1
slots. -/
def initRing : List Nat := [SENT, SENT, SENT, SENT]

/-- Recording a correction position: shift the ring left by one slot and
store (uint16_t)pos in the last slot (lines 94-96 of read_corrector.cpp). -/
def ringPush (r : List Nat) (p : Nat) : List Nat := r.drop 1 ++ [p % U16]

/-- The penalty budget test of line 78 of read_corrector.cpp:
`correction.penalty < 0.0 - read_size * 10 / 100`, where
`read_size * 10 / 100` is size_t integer arithmetic. -/
def penaltyPruned (n : Nat) (pen : Int) : Bool :=
  decide (pen < 0 - ((n * 10 / 100 : Nat) : Int))

/-- The correction-clustering test of line 82 of read_corrector.cpp:
`pos - correction.cpos.front() < 8` in size_t arithmetic (the front slot is
the oldest of the last four recorded correction positions). -/
def spacingPruned (pos : Nat) (cpos : List Nat) : Bool :=
  decide (sub64 pos (cpos.headD SENT) < 8)

/-- The deterministic single-nucleotide extension of lines 61-71: if the
character already at position pos is a nucleotide and shifting the last k-mer
by it lands on a k-mer that is present in the store and good, the state is
advanced with unchanged string, penalty and ring. -/
def detChild (data : KMerData) (s : SState) (pos : Nat) : Option SState :=
  let c := s.str.getD pos ' '
  if is_nucl c then
    let last := shiftK s.last c
    if data.present last && data.good last then
      some ⟨pos, s.str, s.penalty, last, s.cpos⟩
    else none
  else none

/-- One candidate correction of lines 88-105 for the symbol ncc: if the
shifted k-mer is present, then either ncc equals the original character
(no edit, penalty lowered by 1 unless the k-mer is good) or, when the shifted
k-mer is good, the string is edited at pos and the penalty lowered by 1;
in both cases the ring records pos. -/
def corrChild (data : KMerData) (s : SState) (pos : Nat) (ncc : Char) :
    Option SState :=
  let last := shiftK s.last ncc
  if data.present last then
    let cp := ringPush s.cpos pos
    let c := s.str.getD pos ' '
    if c == ncc then
      some ⟨pos, s.str, s.penalty - (if data.good last then 0 else 1), last, cp⟩
    else if data.good last then
      some ⟨pos, s.str.set pos ncc, s.penalty - 1, last, cp⟩
    else none
  else none

/-- All states pushed by the correction loop `for cc = 0..3`. -/
def corrChildren (data : KMerData) (s : SState) (pos : Nat) : List SState :=
  nuclChars.filterMap (corrChild data s pos)

/-- The states pushed when the state s is popped from the priority queue in
CorrectReadRight on a read of length n (lines 57-105): deterministic
extension if possible, otherwise nothing when one of the two pruning rules
fires, otherwise the candidate corrections.  (The source returns before this
point when pos = n; a position beyond the read, which a caller respecting
right_pos < read length never produces, yields no successors.) -/
def children (n : Nat) (data : KMerData) (s : SState) : List SState :=
  let pos := s.pos + 1
  if n ≤ pos then []
  else
    match detChild data s pos with
    | some c => [c]
    | none =>
      if penaltyPruned n s.penalty then []
      else if spacingPruned pos s.cpos then []
      else corrChildren data s pos

/-- The std::less<state> specialisation of lines 32-40: smaller penalty
first, ties broken by smaller position (so the max-priority queue prefers
the least-penalised, most advanced state). -/
def lessB (a b : SState) : Bool :=
  decide (a.penalty < b.penalty) ||
    (a.penalty == b.penalty && decide (a.pos < b.pos))

/-- Popping the top of the priority queue: returns a maximal element under
lessB together with the remaining elements.  (std::priority_queue leaves the
order among elements that compare equal unspecified; this model fixes the
earliest-inserted maximal element, a legitimate refinement.) -/
def popMax : List SState → Option (SState × List SState)
  | [] => none
  | x :: xs =>
    match popMax xs with
    | none => some (x, [])
    | some (m, r) => if lessB x m then some (m, x :: r) else some (x, xs)

/-- Fuel bound for the search loop: every queue element with position p can
give rise to a search tree with strictly fewer than 5^(n+1-p) pops, so the
sum bounds the total number of loop iterations. -/
def measureQ (n : Nat) (q : List SState) : Nat :=
  (q.map (fun s => 5 ^ (n + 1 - s.pos))).sum

/-- The while-loop of CorrectReadRight (lines 51-106), with explicit fuel:
pop the top state; if its successor position reaches the read length return
it, otherwise push its successors and continue.  `searchGo_fuel` below shows
the result is independent of the fuel once the fuel reaches `measureQ`, so
`searchLoop` is the exact (always terminating) loop of the source. -/
def searchGo (n : Nat) (data : KMerData) : Nat → List SState → Option SState :=
  Nat.rec (motive := fun _ => List SState → Option SState)
    (fun _ => none)
    (fun _ ih queue =>
      match popMax queue with
      | none => none
      | some sr =>
        if sr.1.pos + 1 = n then some sr.1
        else ih (sr.2 ++ children n data sr.1))

/-- The search loop run with enough fuel to reach its genuine outcome. -/
def searchLoop (n : Nat) (data : KMerData) (q : List SState) : Option SState :=
  searchGo n data (measureQ n q) q

/-- The initial search state of lines 46-50: position right_pos, unchanged
read, penalty 0, the k-mer ending at right_pos, all ring slots unset. -/
def initState (K : Nat) (seq : List Char) (right_pos : Nat) : SState :=
  ⟨right_pos, seq, 0, (seq.drop (right_pos + 1 - K)).take K, initRing⟩

/-- ReadCorrector::CorrectReadRight (lines 42-112): run the priority search
from right_pos; the string of the first fully extended popped state is
returned, and if the queue empties first the input is returned unchanged
(the suffix is left uncorrected).  The quality string parameter of the
source is never read by the function body and is omitted here. -/
def CorrectReadRight (K : Nat) (data : KMerData) (seq : List Char)
    (right_pos : Nat) : List Char :=
  match searchLoop seq.length data [initState K seq right_pos] with
  | some s => s.str
  | none => seq

/-- Modelled from the spec: the k-mer window of length K starting at read
position p (the unit the missing valid_kmer_generator.hpp slides across the
read). -/
def windowAt (K : Nat) (seq : List Char) (p : Nat) : List Char :=
  (seq.drop p).take K

/-- Modelled from the spec: the window at p is generated only when it
contains no ambiguous symbol. -/
def validWindowAt (K : Nat) (seq : List Char) (p : Nat) : Bool :=
  (windowAt K seq p).all is_nucl

/-- The solid-island tracking state of lines 122-148 of read_corrector.cpp:
current island [left, right], longest island [lleft, lright] and its length
solid_len. -/
structure IslandSt where
  left : Nat
  right : Nat
  lleft : Nat
  lright : Nat
  slen : Nat
deriving DecidableEq

/-- Initial island state: left_pos = right_pos = 0, lleft_pos = lright_pos =
(size_t)-1, solid_len = 0. -/
def islandInit : IslandSt := ⟨0, 0, U64 - 1, U64 - 1, 0⟩

/-- Processing one valid window at read position p (lines 126-148): when its
k-mer is good, either extend the current island (if p is the next window
after its right edge, computed as right_pos - K + 2 in size_t arithmetic) or
start a fresh one, then record it if it is the longest so far.  Subtraction
right - left never wraps because left ≤ right holds throughout for K ≥ 1. -/
def islandStep (K : Nat) (data : KMerData) (seq : List Char)
    (st : IslandSt) (p : Nat) : IslandSt :=
  if data.good (windowAt K seq p) then
    let lr : Nat × Nat :=
      if p ≠ sub64 (st.right + 2) K then (p, p + K - 1) else (st.left, st.right + 1)
    if lr.2 - lr.1 + 1 > st.slen then ⟨lr.1, lr.2, lr.1, lr.2, lr.2 - lr.1 + 1⟩
    else ⟨lr.1, lr.2, st.lleft, st.lright, st.slen⟩
  else st

/-- Phase 1 of CorrectOneRead: slide over all valid k-mer windows of the
read and locate the longest run of good ones. -/
def islandScan (K : Nat) (data : KMerData) (seq : List Char) : IslandSt :=
  (((List.range (seq.length + 1 - K)).filter (validWindowAt K seq)).foldl
    (islandStep K data seq) islandInit)

/-- The changed-nucleotide count of lines 162-164: the number of positions at
which the corrected sequence differs from the original. -/
def countDiffs (a b : List Char) : Nat :=
  ((a.zip b).countP (fun pr => !(pr.1 == pr.2)))

/-- The tail of CorrectOneRead (lines 162-180) as a function of the phase-2
corrected sequence newseq: count the changed nucleotides (the counter
delta), then test `seq.size() != read_size` — note the source compares the
length of the UNTOUCHED original seq with read_size (which was taken from
seq itself), not the length of newseq — and finally store seq — again the
original, not newseq — back into the read.  The Bool is the return value,
the list the sequence held by the read afterwards, the Nat the
changed_nucleotides_ increment. -/
def finishRead (read_size : Nat) (seq newseq : List Char) :
    Bool × List Char × Nat :=
  let corrected := countDiffs seq newseq
  if seq.length ≠ read_size then (false, seq, corrected)
  else (true, seq, corrected)

/-- Phase 2 of CorrectOneRead (lines 158-160): correct rightwards from the
island's right edge, then correct the reverse complement from position
read_size - 1 - lleft_pos (which corrects the original prefix) and flip the
result back. -/
def phase2 (K : Nat) (data : KMerData) (seq : List Char)
    (ll lr : Nat) : List Char :=
  let ns := CorrectReadRight K data seq lr
  RC (CorrectReadRight K data (RC ns) (seq.length - 1 - ll))

/-- ReadCorrector::CorrectOneRead (lines 114-184): find the longest solid
island; if it is non-empty and does not span the whole read, run the two
directional passes and finish; otherwise report whether the island spans the
read.  Returns (return value, sequence held by the read afterwards,
changed_nucleotides_ increment). -/
def CorrectOneRead (K : Nat) (data : KMerData) (seq : List Char) :
    Bool × List Char × Nat :=
  let n := seq.length
  let st := islandScan K data seq
  if st.slen ≠ 0 ∧ st.slen ≠ n then
    finishRead n seq (phase2 K data seq st.lleft st.lright)
  else ((st.slen == n : Bool), seq, 0)

/-! Properties of the priority queue model. -/

theorem lessB_iff (a b : SState) :
    lessB a b = true ↔
      a.penalty < b.penalty ∨ (a.penalty = b.penalty ∧ a.pos < b.pos) := by
  simp [lessB]

theorem lessB_false_iff (a b : SState) :
    lessB a b = false ↔
      ¬(a.penalty < b.penalty ∨ (a.penalty = b.penalty ∧ a.pos < b.pos)) := by
  rw [← lessB_iff, Bool.eq_false_iff, ne_eq]

theorem lessB_irrefl (a : SState) : lessB a a = false := by
  rw [lessB_false_iff]; omega

theorem lessB_asymm {a b : SState} (h : lessB a b = true) : lessB b a = false := by
  rw [lessB_iff] at h; rw [lessB_false_iff]; omega

theorem lessB_neg_trans {a b c : SState} (h1 : lessB a b = false)
    (h2 : lessB b c = false) : lessB a c = false := by
  rw [lessB_false_iff] at h1 h2 ⊢; omega

theorem lessB_false_penalty_le {a b : SState} (h : lessB b a = false) :
    a.penalty ≤ b.penalty := by
  rw [lessB_false_iff] at h; omega

theorem popMax_cons (x : SState) (xs : List SState) :
    popMax (x :: xs) =
      match popMax xs with
      | none => some (x, [])
      | some (m, r) => if lessB x m then some (m, x :: r) else some (x, xs) :=
  rfl

theorem popMax_cons_none {xs : List SState} (x : SState)
    (hx : popMax xs = none) : popMax (x :: xs) = some (x, []) := by
  rw [popMax_cons, hx]

theorem popMax_cons_some {xs : List SState} (x : SState) {m : SState}
    {r : List SState} (hx : popMax xs = some (m, r)) :
    popMax (x :: xs) = if lessB x m then some (m, x :: r) else some (x, xs) := by
  rw [popMax_cons, hx]

theorem popMax_none {q : List SState} (h : popMax q = none) : q = [] := by
  cases q with
  | nil => rfl
  | cons x xs =>
    rcases hx : popMax xs with _ | ⟨m, r⟩
    · rw [popMax_cons_none x hx] at h; exact absurd h (by simp)
    · rw [popMax_cons_some x hx] at h
      by_cases hc : lessB x m = true
      · rw [if_pos hc] at h; exact absurd h (by simp)
      · rw [if_neg hc] at h; exact absurd h (by simp)

theorem popMax_max {q : List SState} {s : SState} {rest : List SState}
    (h : popMax q = some (s, rest)) : ∀ y ∈ q, lessB s y = false := by
  induction q generalizing s rest with
  | nil => exact absurd h (by simp [popMax])
  | cons x xs ih =>
    rcases hx : popMax xs with _ | ⟨m, r⟩
    · rw [popMax_cons_none x hx] at h
      obtain ⟨h1, _⟩ := Prod.mk.injEq .. ▸ Option.some.inj h
      subst h1
      intro y hy
      rcases List.mem_cons.mp hy with hy | hy
      · subst hy; exact lessB_irrefl y
      · exact absurd hy (by simp [popMax_none hx])
    · rw [popMax_cons_some x hx] at h
      have hmax := ih hx
      by_cases hc : lessB x m = true
      · rw [if_pos hc] at h
        obtain ⟨h1, _⟩ := Prod.mk.injEq .. ▸ Option.some.inj h
        subst h1
        intro y hy
        rcases List.mem_cons.mp hy with hy | hy
        · subst hy; exact lessB_asymm hc
        · exact hmax y hy
      · rw [if_neg hc] at h
        obtain ⟨h1, _⟩ := Prod.mk.injEq .. ▸ Option.some.inj h
        subst h1
        intro y hy
        rcases List.mem_cons.mp hy with hy | hy
        · subst hy; exact lessB_irrefl y
        · exact lessB_neg_trans (Bool.eq_false_iff.mpr hc) (hmax y hy)

theorem popMax_perm {q : List SState} {s : SState} {rest : List SState}
    (h : popMax q = some (s, rest)) : q.Perm (s :: rest) := by
  induction q generalizing s rest with
  | nil => exact absurd h (by simp [popMax])
  | cons x xs ih =>
    rcases hx : popMax xs with _ | ⟨m, r⟩
    · rw [popMax_cons_none x hx] at h
      obtain ⟨h1, h2⟩ := Prod.mk.injEq .. ▸ Option.some.inj h
      subst h1; subst h2
      rw [popMax_none hx]
    · rw [popMax_cons_some x hx] at h
      have hperm := ih hx
      by_cases hc : lessB x m = true
      · rw [if_pos hc] at h
        obtain ⟨h1, h2⟩ := Prod.mk.injEq .. ▸ Option.some.inj h
        subst h1; subst h2
        exact (hperm.cons x).trans (List.Perm.swap m x r)
      · rw [if_neg hc] at h
        obtain ⟨h1, h2⟩ := Prod.mk.injEq .. ▸ Option.some.inj h
        subst h1; subst h2
        exact List.Perm.refl _

theorem popMax_mem {q : List SState} {s : SState} {rest : List SState}
    (h : popMax q = some (s, rest)) : s ∈ q ∧ ∀ y ∈ rest, y ∈ q := by
  have hp := (popMax_perm h).symm
  exact ⟨hp.subset (List.mem_cons_self s rest),
    fun y hy => hp.subset (List.mem_cons_of_mem s hy)⟩

/-! Unfolding equations of the fuelled search loop. -/

theorem searchGo_zero (n : Nat) (data : KMerData) (q : List SState) :
    searchGo n data 0 q = none := rfl

theorem searchGo_succ (n : Nat) (data : KMerData) (f : Nat) (q : List SState) :
    searchGo n data (f + 1) q =
      match popMax q with
      | none => none
      | some sr =>
        if sr.1.pos + 1 = n then some sr.1
        else searchGo n data f (sr.2 ++ children n data sr.1) := rfl

/-! Structural facts about the successors of a popped state. -/

theorem detChild_some {data : KMerData} {s : SState} {pos : Nat} {c : SState}
    (h : detChild data s pos = some c) :
    c.pos = pos ∧ c.penalty = s.penalty ∧ c.str = s.str ∧ c.cpos = s.cpos := by
  simp only [detChild] at h
  split at h
  · split at h
    · obtain rfl := Option.some.inj h
      exact ⟨rfl, rfl, rfl, rfl⟩
    · exact absurd h (by simp)
  · exact absurd h (by simp)

theorem corrChild_some {data : KMerData} {s : SState} {pos : Nat} {ncc : Char}
    {c : SState} (h : corrChild data s pos ncc = some c) :
    c.pos = pos ∧ c.penalty ≤ s.penalty ∧ c.str.length = s.str.length ∧
      c.cpos = ringPush s.cpos pos := by
  simp only [corrChild] at h
  split at h
  · split at h
    · obtain rfl := Option.some.inj h
      refine ⟨rfl, ?_, rfl, rfl⟩
      dsimp only
      split <;> omega
    · split at h
      · obtain rfl := Option.some.inj h
        refine ⟨rfl, ?_, ?_, rfl⟩
        · dsimp only
          omega
        · dsimp only
          exact List.length_set ..
      · exact absurd h (by simp)
  · exact absurd h (by simp)

theorem corrChildren_mem {data : KMerData} {s : SState} {pos : Nat} {c : SState}
    (h : c ∈ corrChildren data s pos) :
    c.pos = pos ∧ c.penalty ≤ s.penalty ∧ c.str.length = s.str.length ∧
      c.cpos = ringPush s.cpos pos := by
  obtain ⟨ncc, _, hc⟩ := List.mem_filterMap.mp h
  exact corrChild_some hc

theorem children_mem {n : Nat} {data : KMerData} {s : SState} {c : SState}
    (h : c ∈ children n data s) :
    c.pos = s.pos + 1 ∧ c.penalty ≤ s.penalty ∧
      c.str.length = s.str.length := by
  simp only [children] at h
  split at h
  · exact absurd h (by simp)
  · rcases hd : detChild data s (s.pos + 1) with _ | c0 <;> simp only [hd] at h
    · split at h
      · exact absurd h (by simp)
      · split at h
        · exact absurd h (by simp)
        · obtain ⟨h1, h2, h3, _⟩ := corrChildren_mem h
          exact ⟨h1, h2, h3⟩
    · simp only [List.mem_singleton] at h
      subst h
      obtain ⟨h1, h2, h3, _⟩ := detChild_some hd
      exact ⟨h1, le_of_eq h2, by rw [h3]⟩

theorem children_length_le {n : Nat} {data : KMerData} {s : SState} :
    (children n data s).length ≤ 4 := by
  simp only [children]
  split
  · simp
  · rcases hd : detChild data s (s.pos + 1) with _ | c0 <;> simp only [hd]
    · split
      · simp
      · split
        · simp
        · calc (corrChildren data s (s.pos + 1)).length
              ≤ nuclChars.length := List.length_filterMap_le _ _
            _ = 4 := rfl
    · simp

/-! The loop body strictly decreases the fuel bound, hence the fuelled loop
is fuel-insensitive once the fuel reaches the bound: `searchLoop` really is
the (always terminating) while-loop of the source. -/

theorem measureQ_perm {n : Nat} {q q' : List SState} (h : q.Perm q') :
    measureQ n q = measureQ n q' :=
  (h.map _).sum_eq

theorem measureQ_append (n : Nat) (a b : List SState) :
    measureQ n (a ++ b) = measureQ n a + measureQ n b := by
  simp [measureQ]

theorem measureQ_children_le {n : Nat} {data : KMerData} {s : SState} :
    measureQ n (children n data s) ≤ 4 * 5 ^ (n - s.pos) := by
  have hterm : ∀ c ∈ children n data s,
      5 ^ (n + 1 - c.pos) = 5 ^ (n - s.pos) := by
    intro c hc
    rw [(children_mem hc).1]
    congr 1
    omega
  calc measureQ n (children n data s)
      = ((children n data s).map (fun _ => 5 ^ (n - s.pos))).sum := by
        unfold measureQ
        exact congrArg List.sum (List.map_congr_left hterm)
    _ = (children n data s).length * 5 ^ (n - s.pos) := by
        rw [List.map_const']
        simp [List.sum_replicate, smul_eq_mul]
    _ ≤ 4 * 5 ^ (n - s.pos) :=
        Nat.mul_le_mul_right _ children_length_le

theorem measureQ_pos {n : Nat} {q : List SState} (h : q ≠ []) :
    0 < measureQ n q := by
  cases q with
  | nil => exact absurd rfl h
  | cons x xs =>
    have : 0 < 5 ^ (n + 1 - x.pos) := Nat.pos_pow_of_pos _ (by omega)
    simp only [measureQ, List.map_cons, List.sum_cons]
    omega

theorem measureQ_eq_zero {n : Nat} {q : List SState}
    (h : measureQ n q = 0) : q = [] := by
  by_contra hne
  have := measureQ_pos (n := n) hne
  omega

theorem measureQ_step {n : Nat} {data : KMerData} {q : List SState}
    {s : SState} {rest : List SState} (hpop : popMax q = some (s, rest)) :
    measureQ n (rest ++ children n data s) < measureQ n q := by
  rw [measureQ_perm (popMax_perm hpop)]
  rw [measureQ_append]
  simp only [measureQ, List.map_cons, List.sum_cons]
  have hch : measureQ n (children n data s) ≤ 4 * 5 ^ (n - s.pos) :=
    measureQ_children_le
  unfold measureQ at hch
  rcases Nat.lt_or_ge (s.pos + 1) n with hlt | hge
  · have hexp : n + 1 - s.pos = (n - s.pos) + 1 := by omega
    have : 4 * 5 ^ (n - s.pos) < 5 ^ (n + 1 - s.pos) := by
      rw [hexp, pow_succ]
      have : 0 < 5 ^ (n - s.pos) := Nat.pos_pow_of_pos _ (by omega)
      omega
    omega
  · have hguard : n ≤ s.pos + 1 := hge
    have : children n data s = [] := by
      unfold children
      rw [if_pos hguard]
    rw [this]
    have : 0 < 5 ^ (n + 1 - s.pos) := Nat.pos_pow_of_pos _ (by omega)
    simp only [measureQ, List.map_nil, List.sum_nil]
    omega

theorem searchGo_nil (n : Nat) (data : KMerData) (f : Nat) :
    searchGo n data f [] = none := by
  cases f with
  | zero => rfl
  | succ g => rfl

theorem searchGo_stable (n : Nat) (data : KMerData) :
    ∀ f g q, measureQ n q ≤ f → measureQ n q ≤ g →
      searchGo n data f q = searchGo n data g q := by
  intro f
  induction f with
  | zero =>
    intro g q hf _
    rw [measureQ_eq_zero (Nat.le_zero.mp hf)]
    rw [searchGo_nil, searchGo_nil]
  | succ f ih =>
    intro g q hf hg
    cases g with
    | zero =>
      rw [measureQ_eq_zero (Nat.le_zero.mp hg)]
      rw [searchGo_nil, searchGo_nil]
    | succ g =>
      rw [searchGo_succ, searchGo_succ]
      rcases hpop : popMax q with _ | ⟨s, rest⟩
      · simp only [hpop]
      · simp only [hpop]
        by_cases hend : s.pos + 1 = n
        · rw [if_pos hend, if_pos hend]
        · rw [if_neg hend, if_neg hend]
          have hdec : measureQ n (rest ++ children n data s) < measureQ n q :=
            measureQ_step hpop
          have h1 : measureQ n (rest ++ children n data s) ≤ f := by omega
          have h2 : measureQ n (rest ++ children n data s) ≤ g := by omega
          exact ih g _ h1 h2

theorem searchGo_eq_searchLoop {n : Nat} {data : KMerData} {f : Nat}
    {q : List SState} (hf : measureQ n q ≤ f) :
    searchGo n data f q = searchLoop n data q :=
  searchGo_stable n data f (measureQ n q) q hf (Nat.le_refl _)

/-- The one-step unfolding of the search loop: searchLoop is exactly the
(always terminating) while-loop of CorrectReadRight. -/
theorem searchLoop_eq (n : Nat) (data : KMerData) (q : List SState) :
    searchLoop n data q =
      match popMax q with
      | none => none
      | some sr =>
        if sr.1.pos + 1 = n then some sr.1
        else searchLoop n data (sr.2 ++ children n data sr.1) := by
  rcases hpop : popMax q with _ | ⟨s, rest⟩
  · rcases hq : measureQ n q with _ | m
    · unfold searchLoop
      rw [hq, searchGo_zero]
    · unfold searchLoop
      rw [hq, searchGo_succ]
      simp only [hpop]
  · have hq : measureQ n q ≠ 0 := by
      intro h0
      rw [measureQ_eq_zero h0] at hpop
      exact absurd hpop (by simp [popMax])
    obtain ⟨m, hm⟩ := Nat.exists_eq_succ_of_ne_zero hq
    unfold searchLoop
    rw [hm, searchGo_succ]
    simp only [hpop]
    by_cases hend : s.pos + 1 = n
    · rw [if_pos hend, if_pos hend]
    · rw [if_neg hend, if_neg hend]
      have hdec : measureQ n (rest ++ children n data s) < measureQ n q :=
        measureQ_step hpop
      exact searchGo_eq_searchLoop (by omega)

theorem searchGo_str_length {n L : Nat} {data : KMerData} :
    ∀ {f : Nat} {q : List SState} {sf : SState},
      searchGo n data f q = some sf → (∀ s ∈ q, s.str.length = L) →
      sf.str.length = L := by
  intro f
  induction f with
  | zero => intro q sf h _; rw [searchGo_zero] at h; exact absurd h (by simp)
  | succ f ih =>
    intro q sf h hinv
    rw [searchGo_succ] at h
    rcases hpop : popMax q with _ | ⟨s, rest⟩ <;> simp only [hpop] at h
    · exact absurd h (by simp)
    · by_cases hend : s.pos + 1 = n
      · rw [if_pos hend] at h
        obtain rfl := Option.some.inj h
        exact hinv _ (popMax_mem hpop).1
      · rw [if_neg hend] at h
        refine ih h ?_
        intro x hx
        rcases List.mem_append.mp hx with hx | hx
        · exact hinv x ((popMax_mem hpop).2 x hx)
        · rw [(children_mem hx).2.2]
          exact hinv s (popMax_mem hpop).1

/-- CorrectReadRight preserves the length of the read: the search never
inserts or deletes, it only substitutes single symbols. -/
theorem CorrectReadRight_length (K : Nat) (data : KMerData) (seq : List Char)
    (right_pos : Nat) :
    (CorrectReadRight K data seq right_pos).length = seq.length := by
  unfold CorrectReadRight
  rcases hrun : searchLoop seq.length data [initState K seq right_pos]
    with _ | sf
  · rfl
  · unfold searchLoop at hrun
    refine searchGo_str_length hrun ?_
    intro s hs
    rw [List.mem_singleton.mp hs]
    rfl


/-! The search-tree descendant relation and optimality of the returned
state (the priority queue pops a maximal state first, and penalties only
decrease along the tree, so the first fully extended state popped is at
least as good as every completion reachable from the explored frontier). -/

/-- b is reachable from a by repeatedly pushing successors in the search of
CorrectReadRight over a read of length n. -/
def Desc (n : Nat) (data : KMerData) : SState → SState → Prop :=
  Relation.ReflTransGen (fun a b => b ∈ children n data a)

theorem Desc_penalty_le {n : Nat} {data : KMerData} {a b : SState}
    (h : Desc n data a b) : b.penalty ≤ a.penalty := by
  induction h with
  | refl => exact le_refl _
  | tail _ hstep ih => exact le_trans (children_mem hstep).2.1 ih

theorem searchGo_opt {n : Nat} {data : KMerData} :
    ∀ {f : Nat} {q : List SState} {sf : SState},
      searchGo n data f q = some sf →
      ∀ x ∈ q, ∀ d, Desc n data x d → d.pos + 1 = n →
        d.penalty ≤ sf.penalty := by
  intro f
  induction f with
  | zero => intro q sf h; rw [searchGo_zero] at h; exact absurd h (by simp)
  | succ f ih =>
    intro q sf h x hx d hdesc hdpos
    rw [searchGo_succ] at h
    rcases hpop : popMax q with _ | ⟨s, rest⟩ <;> simp only [hpop] at h
    · exact absurd h (by simp)
    · by_cases hend : s.pos + 1 = n
      · rw [if_pos hend] at h
        obtain rfl := Option.some.inj h
        have hxle : x.penalty ≤ s.penalty :=
          lessB_false_penalty_le (popMax_max hpop x hx)
        exact le_trans (Desc_penalty_le hdesc) hxle
      · rw [if_neg hend] at h
        have hperm := popMax_perm hpop
        rcases List.mem_cons.mp (hperm.subset hx) with hxs | hxrest
        · subst hxs
          rcases Relation.ReflTransGen.cases_head hdesc with hd | ⟨c, hc, hcd⟩
          · subst hd; exact absurd hdpos hend
          · exact ih h c (List.mem_append_right rest hc) d hcd hdpos
        · exact ih h x (List.mem_append_left _ hxrest) d hdesc hdpos

/-! Arithmetic facts about the wrapped size_t subtraction. -/

theorem sub64_of_le {a b : Nat} (hb : b ≤ a) (ha : a < U64) :
    sub64 a b = a - b := by
  simp only [sub64, U64] at *
  omega

theorem sub64_two_eq_zero_iff {K : Nat} (h1 : 1 ≤ K) (h2 : K < U64) :
    sub64 2 K = 0 ↔ K = 2 := by
  simp only [sub64, U64] at *
  omega

/-- If every window of the read is valid and good, the island scan finds a
single island spanning the whole read. -/
theorem islandScan_all_good {K : Nat} {data : KMerData} {seq : List Char}
    (hK1 : 1 ≤ K) (hKn : K ≤ seq.length) (hn : seq.length < U64)
    (hall : ∀ p ∈ List.range (seq.length + 1 - K),
      validWindowAt K seq p = true ∧ data.good (windowAt K seq p) = true) :
    islandScan K data seq =
      ⟨0, seq.length - 1, 0, seq.length - 1, seq.length⟩ := by
  have hfilter : (List.range (seq.length + 1 - K)).filter (validWindowAt K seq)
      = List.range (seq.length + 1 - K) :=
    List.filter_eq_self.mpr (fun p hp => (hall p hp).1)
  unfold islandScan
  rw [hfilter]
  have haux : ∀ j, 1 ≤ j → j ≤ seq.length + 1 - K →
      (List.range j).foldl (islandStep K data seq) islandInit =
        ⟨0, K + j - 2, 0, K + j - 2, K + j - 1⟩ := by
    intro j hj1 hjle
    induction j, hj1 using Nat.le_induction with
    | base =>
      have h0 : (0 : Nat) ∈ List.range (seq.length + 1 - K) :=
        List.mem_range.mpr (by omega)
      have hgood := (hall 0 h0).2
      have hr1 : List.range 1 = [0] := rfl
      rw [hr1]
      simp only [List.foldl_cons, List.foldl_nil]
      simp only [islandStep, islandInit, hgood, if_true]
      by_cases hcase : (0 : Nat) ≠ sub64 (0 + 2) K
      · rw [if_pos hcase]
        dsimp only
        rw [if_pos (by omega)]
        simp only [IslandSt.mk.injEq, true_and, and_true]
        omega
      · rw [if_neg hcase]
        have hK2 : K = 2 := by
          push_neg at hcase
          have h20 : sub64 2 K = 0 := by simpa using hcase.symm
          exact (sub64_two_eq_zero_iff hK1 (by omega)).mp h20
        subst hK2
        dsimp only
        rw [if_pos (by omega)]
    | succ j hj ihj =>
      have hjle2 : j ≤ seq.length + 1 - K := by omega
      have ih := ihj hjle2
      rw [List.range_succ, List.foldl_append, ih]
      have hjmem : j ∈ List.range (seq.length + 1 - K) :=
        List.mem_range.mpr (by omega)
      have hgood := (hall j hjmem).2
      simp only [List.foldl_cons, List.foldl_nil]
      simp only [islandStep, hgood, if_true]
      have h22 : K + j - 2 + 2 = K + j := by omega
      have hsub : sub64 (K + j - 2 + 2) K = j := by
        rw [h22, sub64_of_le (by omega) (by omega)]
        omega
      have hcond : ¬(j ≠ sub64 (K + j - 2 + 2) K) := by simp [hsub]
      rw [if_neg hcond]
      dsimp only
      rw [if_pos (by omega)]
      simp only [IslandSt.mk.injEq, true_and, and_true]
      refine ⟨?_, ?_, ?_⟩ <;> omega
  have hfin := haux (seq.length + 1 - K) (by omega) (le_refl _)
  rw [hfin]
  have e1 : K + (seq.length + 1 - K) - 2 = seq.length - 1 := by omega
  have e2 : K + (seq.length + 1 - K) - 1 = seq.length := by omega
  rw [e1, e2]

/-! The correction-position ring as a function of the sequence of recorded
correction events, and an instrumented copy of the successor relation that
carries the event history, used to state and prove the ring/spacing
invariant. -/

/-- The ring contents after recording the events ev (in order) starting from
the all-unset ring. -/
def ringOf (ev : List Nat) : List Nat := ev.foldl ringPush initRing

theorem ringOf_append (ev : List Nat) (e : Nat) :
    ringOf (ev ++ [e]) = ringPush (ringOf ev) e := by
  simp [ringOf, List.foldl_append]

theorem ringOf_closed (ev : List Nat) :
    ringOf ev = (initRing ++ ev.map (fun e => e % U16)).drop ev.length := by
  induction ev using List.reverseRecOn with
  | nil => rfl
  | append_singleton ev e ih =>
    rw [ringOf_append, ih]
    simp only [ringPush, List.length_append, List.length_singleton,
      List.map_append, List.map_cons, List.map_nil]
    rw [List.drop_drop]
    rw [← List.append_assoc]
    rw [List.drop_append_of_le_length
      (by simp [initRing] : ev.length + 1 ≤ (initRing ++ ev.map (fun e => e % U16)).length)]

theorem headD_drop (l : List Nat) (m : Nat) (d : Nat) :
    (l.drop m).headD d = l.getD m d := by
  induction l generalizing m with
  | nil => simp
  | cons x xs ih =>
    cases m with
    | zero => rfl
    | succ m => exact ih m

theorem ringOf_front (ev : List Nat) :
    (ringOf ev).headD SENT =
      if ev.length < 4 then SENT else (ev.getD (ev.length - 4) 0) % U16 := by
  rw [ringOf_closed, headD_drop]
  by_cases h4 : ev.length < 4
  · rw [if_pos h4]
    rw [List.getD_append _ _ _ _ (by simp [initRing]; omega)]
    rcases ev.length with _ | _ | _ | _ | m <;> rfl
  · rw [if_neg h4]
    rw [List.getD_append_right _ _ _ _ (by simp [initRing]; omega)]
    have hlt : ev.length - initRing.length < (ev.map (fun e => e % U16)).length := by
      simp [initRing]
      omega
    rw [List.getD_eq_getElem _ _ hlt]
    rw [List.getElem_map]
    have hlt2 : ev.length - initRing.length < ev.length := by
      simp [initRing] at hlt ⊢
      omega
    rw [List.getD_eq_getElem _ _ (by simpa [initRing] using hlt2)]
    simp [initRing]

/-- The successor relation of the search, instrumented with the list of
correction events recorded so far: identical to `children`, except that each
state is paired with its event history and every push in the correction
branch appends the current position to it. -/
def achildren (n : Nat) (data : KMerData) (a : SState × List Nat) :
    List (SState × List Nat) :=
  let s := a.1
  let pos := s.pos + 1
  if n ≤ pos then []
  else
    match detChild data s pos with
    | some c => [(c, a.2)]
    | none =>
      if penaltyPruned n s.penalty then []
      else if spacingPruned pos s.cpos then []
      else (corrChildren data s pos).map (fun c => (c, a.2 ++ [pos]))

/-- Forgetting the event history recovers the plain successor relation. -/
theorem achildren_fst (n : Nat) (data : KMerData) (a : SState × List Nat) :
    (achildren n data a).map Prod.fst = children n data a.1 := by
  simp only [achildren, children]
  split
  · rfl
  · rcases hd : detChild data a.1 (a.1.pos + 1) with _ | c <;> simp only [hd]
    · split
      · rfl
      · split
        · rfl
        · rw [List.map_map]
          exact List.map_id _
    · rfl

theorem achildren_mem {n : Nat} {data : KMerData} {a b : SState × List Nat}
    (h : b ∈ achildren n data a) :
    a.1.pos + 1 < n ∧ b.1.pos = a.1.pos + 1 ∧
      ((b.2 = a.2 ∧ b.1.cpos = a.1.cpos) ∨
       (b.2 = a.2 ++ [a.1.pos + 1] ∧
         b.1.cpos = ringPush a.1.cpos (a.1.pos + 1))) := by
  simp only [achildren] at h
  split at h
  · exact absurd h (by simp)
  · rename_i hguard
    refine ⟨by omega, ?_⟩
    rcases hd : detChild data a.1 (a.1.pos + 1) with _ | c <;> simp only [hd] at h
    · split at h
      · exact absurd h (by simp)
      · split at h
        · exact absurd h (by simp)
        · obtain ⟨c, hc, rfl⟩ := List.mem_map.mp h
          obtain ⟨h1, _, _, h4⟩ := corrChildren_mem hc
          exact ⟨h1, Or.inr ⟨rfl, h4⟩⟩
    · simp only [List.mem_singleton] at h
      subst h
      obtain ⟨h1, _, _, h4⟩ := detChild_some hd
      exact ⟨h1, Or.inl ⟨rfl, h4⟩⟩

/-- The instrumented reachability relation from the initial state of a
CorrectReadRight search. -/
def AReach (n : Nat) (data : KMerData) (start : SState)
    (p : SState × List Nat) : Prop :=
  Relation.ReflTransGen (fun a b => b ∈ achildren n data a) (start, []) p

/-- Invariant along every instrumented search path: the ring always holds
exactly the last four recorded events (padded with the sentinel), every
recorded event is a position at or before the state's position and inside
the read, and every state but possibly the initial one sits inside the
read. -/
theorem AReach_inv {n : Nat} {data : KMerData} {start : SState}
    (hstart : start.cpos = initRing) {p : SState × List Nat}
    (h : AReach n data start p) :
    p.1.cpos = ringOf p.2 ∧ (∀ e ∈ p.2, e ≤ p.1.pos ∧ e < n) ∧
      (p = (start, []) ∨ p.1.pos < n) := by
  induction h with
  | refl => exact ⟨hstart, by simp, Or.inl rfl⟩
  | tail hab hbc ih =>
    obtain ⟨hring, hev, _⟩ := ih
    obtain ⟨hposn, hpos, hcase⟩ := achildren_mem hbc
    rcases hcase with ⟨hev2, hcp⟩ | ⟨hev2, hcp⟩
    · refine ⟨by rw [hcp, hev2, hring], ?_, Or.inr (by omega)⟩
      intro e he
      rw [hev2] at he
      have := hev e he
      omega
    · refine ⟨?_, ?_, Or.inr (by omega)⟩
      · rw [hcp, hev2, hring, ringOf_append]
      · intro e he
        rw [hev2] at he
        rcases List.mem_append.mp he with he | he
        · have := hev e he
          omega
        · simp only [List.mem_singleton] at he
          omega

/-! Claim theorems about the pruning rules of CorrectReadRight. -/

theorem penaltyPruned_iff (n : Nat) (p : Int) :
    penaltyPruned n p = true ↔ ((p : ℚ) < -(1 / 10) * (n : ℚ)) := by
  unfold penaltyPruned
  rw [decide_eq_true_iff]
  have hq : ((p : ℚ) < -(1 / 10) * (n : ℚ)) ↔ (10 * p < -(n : Int)) := by
    constructor
    · intro h
      have h3 : ((10 * p : Int) : ℚ) < ((-(n : Int) : Int) : ℚ) := by
        push_cast
        linarith
      exact_mod_cast h3
    · intro h
      have h3 : ((10 * p : Int) : ℚ) < ((-(n : Int) : Int) : ℚ) := by
        exact_mod_cast h
      push_cast at h3
      linarith
  rw [hq]
  omega

/-- C4: for a popped state that the deterministic extension could not
advance, the branch is abandoned by the budget rule exactly when its
accumulated penalty is strictly below -0.1 times the read length.  (The
source compares against the size_t quantity read_size * 10 / 100; on the
integer-valued penalties of the search, that comparison is equivalent to the
exact rational threshold, as the first conjunct states for every integer
penalty.) -/
theorem claim_C4 (n : Nat) (data : KMerData) (s : SState)
    (hdet : detChild data s (s.pos + 1) = none) :
    (penaltyPruned n s.penalty = true ↔
      ((s.penalty : ℚ) < -(1 / 10) * (n : ℚ))) ∧
    (penaltyPruned n s.penalty = true → children n data s = []) := by
  refine ⟨penaltyPruned_iff n s.penalty, ?_⟩
  intro hp
  simp only [children]
  split
  · rfl
  · rw [hdet]

/-- An empty k-mer store: nothing is present, nothing is good. -/
def dataNone : KMerData := ⟨fun _ => false, fun _ => false⟩

/-- A popped state over a length-10 read with penalty -2, used to witness
the budget rule. -/
def stateC4 : SState :=
  ⟨0, ['A', 'A', 'A', 'A', 'A', 'A', 'A', 'A', 'A', 'A'], -2, ['A'], initRing⟩

theorem claim_C4_witness : children 10 dataNone stateC4 = [] :=
  (claim_C4 10 dataNone stateC4 (by decide)).2 (by decide)

/-- C3 (amended): a search branch is abandoned by the spacing rule exactly
when the OLDEST of the four recorded correction-position slots (not the most
recent one) is fewer than 8 positions before the current position; when the
slot is far enough away (and neither the deterministic extension nor the
penalty budget intervened) the correction candidates are explored. -/
theorem claim_C3_amended (n : Nat) (data : KMerData) (s : SState)
    (hdet : detChild data s (s.pos + 1) = none)
    (hpen : penaltyPruned n s.penalty = false) :
    (spacingPruned (s.pos + 1) s.cpos = true → children n data s = []) ∧
    (s.pos + 1 < n → spacingPruned (s.pos + 1) s.cpos = false →
      children n data s = corrChildren data s (s.pos + 1)) := by
  constructor
  · intro hsp
    simp only [children]
    split
    · rfl
    · simp [hdet, hpen, hsp]
  · intro hlt hsp
    simp only [children]
    rw [if_neg (by omega)]
    simp [hdet, hpen, hsp]

/-- A popped state whose ring already holds four recorded corrections at
position 0, one position before the current position: the spacing rule
fires. -/
def stateSp : SState := ⟨0, ['A', 'A'], 0, ['A'], [0, 0, 0, 0]⟩

theorem claim_C3_amended_witness : children 2 dataNone stateSp = [] :=
  (claim_C3_amended 2 dataNone stateSp (by decide) (by decide)).1 (by decide)

/-- A k-mer store over 1-mers in which only A is present and good. -/
def dataA : KMerData := ⟨fun k => k == ['A'], fun k => k == ['A']⟩

/-- The read ATATAAAAAA: its positions 1 and 3 hold T, whose 1-mer is
absent from dataA. -/
def readATAT : List Char := ['A', 'T', 'A', 'T', 'A', 'A', 'A', 'A', 'A', 'A']

/-- C3 counterexample: a single CorrectReadRight call on ATATAAAAAA (k = 1,
only A solid) edits BOTH positions 1 and 3 — two edits only 2 < 8 positions
apart — because the spacing rule only consults the oldest of the four ring
slots, which is still the sentinel after two corrections.  This refutes the
claim that no two edits introduced by a single call are closer than 8
positions. -/
theorem claim_C3_counterexample :
    CorrectReadRight 1 dataA readATAT 0 =
        ['A', 'A', 'A', 'A', 'A', 'A', 'A', 'A', 'A', 'A'] ∧
      readATAT.getD 1 ' ' ≠ 'A' ∧ readATAT.getD 3 ' ' ≠ 'A' ∧
      (3 : Nat) - 1 < 8 := by
  refine ⟨by decide, by decide, by decide, by decide⟩

/-- C10: along every search path of CorrectReadRight, whenever a state is
expanded non-deterministically (the deterministic extension failed and
neither pruning rule fired) at position pos = s.pos + 1, either fewer than
four correction events have been recorded on that path, or the
fourth-most-recent recorded correction position is at least 8 positions
before pos.  (The ring records every non-deterministic push — edits and
no-edit passes alike — and the spacing test compares pos with the ring's
front, the fourth-most-recent event.) -/
theorem claim_C10 (K : Nat) (data : KMerData) (seq : List Char) (start : Nat)
    (hn : seq.length ≤ SENT) (s : SState) (ev : List Nat)
    (hreach : AReach seq.length data (initState K seq start) (s, ev))
    (_hdet : detChild data s (s.pos + 1) = none)
    (_hpen : penaltyPruned seq.length s.penalty = false)
    (hsp : spacingPruned (s.pos + 1) s.cpos = false) :
    ev.length < 4 ∨ ev.getD (ev.length - 4) 0 + 8 ≤ s.pos + 1 := by
  obtain ⟨hring, hev, hbound⟩ := AReach_inv rfl hreach
  dsimp only at hring hev hbound
  by_cases h4 : ev.length < 4
  · exact Or.inl h4
  · right
    have hfront : s.cpos.headD SENT = (ev.getD (ev.length - 4) 0) % U16 := by
      rw [hring, ringOf_front, if_neg h4]
    have hmem : ev.getD (ev.length - 4) 0 ∈ ev := by
      rw [List.getD_eq_getElem _ _ (by omega)]
      exact List.getElem_mem _
    obtain ⟨he1, he2⟩ := hev _ hmem
    have hposn : s.pos < seq.length := by
      rcases hbound with hb | hb
      · exfalso
        apply h4
        have : ev = [] := (Prod.ext_iff.mp hb).2
        simp [this]
      · exact hb
    have hSn : seq.length ≤ 65535 := by simpa [SENT] using hn
    have hemod : (ev.getD (ev.length - 4) 0) % U16 = ev.getD (ev.length - 4) 0 :=
      Nat.mod_eq_of_lt (by simp only [U16]; omega)
    simp only [spacingPruned, decide_eq_false_iff_not] at hsp
    rw [hfront, hemod] at hsp
    rw [sub64_of_le (by omega) (by simp only [U64]; omega)] at hsp
    omega

/-- The initial search state over the read AA (k = 1), used to witness the
ring/spacing invariant at the start of a path. -/
def stateAA : SState := initState 1 ['A', 'A'] 0

theorem claim_C10_witness :
    ([] : List Nat).length < 4 ∨
      ([] : List Nat).getD (([] : List Nat).length - 4) 0 + 8 ≤ stateAA.pos + 1 :=
  claim_C10 1 dataNone ['A', 'A'] 0 (by decide) stateAA []
    Relation.ReflTransGen.refl (by decide) (by decide) (by decide)

/-- C5: the priority queue of CorrectReadRight orders states by higher
penalty first with ties broken by higher position (first conjunct: the
std::less comparator puts a before b exactly when a has lower penalty or,
at equal penalty, lower position), the string of the first fully extended
popped state is what the call returns (second conjunct), and that state's
penalty is at least the penalty of every completed state reachable from the
explored frontier, i.e. of every descendant of the initial state whose
position reaches the read end (third conjunct). -/
theorem claim_C5 (K : Nat) (data : KMerData) (seq : List Char)
    (right_pos : Nat) (sf : SState)
    (hrun : searchLoop seq.length data [initState K seq right_pos] = some sf) :
    (∀ a b : SState, lessB a b = true ↔
        (a.penalty < b.penalty ∨ (a.penalty = b.penalty ∧ a.pos < b.pos))) ∧
    CorrectReadRight K data seq right_pos = sf.str ∧
    (∀ d : SState, Desc seq.length data (initState K seq right_pos) d →
      d.pos + 1 = seq.length → d.penalty ≤ sf.penalty) := by
  refine ⟨lessB_iff, ?_, ?_⟩
  · unfold CorrectReadRight
    rw [hrun]
  · intro d hdesc hdpos
    unfold searchLoop at hrun
    exact searchGo_opt hrun _ (List.mem_singleton_self _) d hdesc hdpos

/-- The state returned by the search on the already solid read AA. -/
def sfAA : SState := ⟨1, ['A', 'A'], 0, ['A'], initRing⟩

theorem claim_C5_witness : sfAA.penalty ≤ sfAA.penalty :=
  (claim_C5 1 dataA ['A', 'A'] 0 sfAA (by decide)).2.2 sfAA
    (Relation.ReflTransGen.single (by decide)) (by decide)

/-- C6: the sequence held by the read after CorrectOneRead has the same
length as before the call, and each directional CorrectReadRight pass
preserves the length of its input (the search only substitutes single
symbols, it never inserts or deletes). -/
theorem claim_C6 (K : Nat) (data : KMerData) (seq : List Char) :
    ((CorrectOneRead K data seq).2.1).length = seq.length ∧
    (∀ right_pos, (CorrectReadRight K data seq right_pos).length = seq.length) := by
  constructor
  · simp only [CorrectOneRead]
    split
    · simp only [finishRead]
      split <;> rfl
    · rfl
  · intro rp
    exact CorrectReadRight_length K data seq rp

/-- C9: on a read every window of which is valid and good, the solid island
spans the whole read, so CorrectOneRead returns true without invoking the
directional passes (the correction branch requires solid_len != read_size),
leaves the sequence unchanged and counts zero changed nucleotides. -/
theorem claim_C9 (K : Nat) (data : KMerData) (seq : List Char)
    (hK1 : 1 ≤ K) (hKn : K ≤ seq.length) (hn : seq.length < U64)
    (hall : ∀ p ∈ List.range (seq.length + 1 - K),
      validWindowAt K seq p = true ∧ data.good (windowAt K seq p) = true) :
    (islandScan K data seq).slen = seq.length ∧
    CorrectOneRead K data seq = (true, seq, 0) := by
  have hisl := islandScan_all_good hK1 hKn hn hall
  refine ⟨by rw [hisl], ?_⟩
  simp only [CorrectOneRead, hisl]
  rw [if_neg (by simp)]
  simp

theorem claim_C9_witness : CorrectOneRead 1 dataA ['A', 'A'] = (true, ['A', 'A'], 0) :=
  (claim_C9 1 dataA ['A', 'A'] (by decide) (by decide) (by decide) (by decide)).2

/-- C2 (amended): CorrectOneRead returns true exactly when the island scan
found a non-empty solid island or the read is empty; in particular it
returns true after ANY attempted correction, also when the priority queue
emptied and a suffix was left uncorrected, so true does not mean the read
is fully solid. -/
theorem claim_C2_amended (K : Nat) (data : KMerData) (seq : List Char) :
    (CorrectOneRead K data seq).1 = true ↔
      ((islandScan K data seq).slen ≠ 0 ∨ seq.length = 0) := by
  simp only [CorrectOneRead]
  split
  · rename_i hc
    simp only [finishRead]
    rw [if_neg (by simp)]
    simpa using Or.inl hc.1
  · rename_i hc
    dsimp only
    rw [show (((islandScan K data seq).slen == seq.length) = true) ↔
        ((islandScan K data seq).slen = seq.length) from beq_iff_eq]
    omega

/-- A k-mer store over 2-mers in which only AC is present and good. -/
def dataAC : KMerData := ⟨fun k => k == ['A', 'C'], fun k => k == ['A', 'C']⟩

/-- The read ACT: its first window AC is good, its second window CT is
absent, and no correction can repair it (no 2-mer starting with C is in the
store), so the search queue empties. -/
def readACT : List Char := ['A', 'C', 'T']

/-- C2 counterexample: on ACT over dataAC the correction branch runs, the
right pass exhausts its queue leaving the suffix uncorrected, and
CorrectOneRead nevertheless returns true although the valid window at
position 1 (the k-mer CT) is not good — the read is not fully solid.  This
refutes the claim that true is returned only for reads that are fully solid
when the call completes. -/
theorem claim_C2_counterexample :
    (CorrectOneRead 2 dataAC readACT).1 = true ∧
    (CorrectOneRead 2 dataAC readACT).2.1 = readACT ∧
    validWindowAt 2 readACT 1 = true ∧
    dataAC.good (windowAt 2 readACT 1) = false := by
  refine ⟨by decide, by decide, by decide, by decide⟩

/-- The read AT over dataA: position 0 is a solid island, position 1 is an
error that the right pass corrects to A. -/
def readAT : List Char := ['A', 'T']

/-- C1 (code bug): on the read AT over dataA the two directional passes
produce the corrected sequence AA (first conjunct; the island is
[0, 0]), CorrectOneRead returns true and counts 1 changed nucleotide, but
the sequence it stores back into the read is the ORIGINAL AT, not the
corrected AA — line 179 of read_corrector.cpp passes seq.data() instead of
newseq.data() to setSequence, so no accepted edit ever reaches the output
read. -/
theorem claim_C1_code_eval :
    phase2 1 dataA readAT 0 0 = ['A', 'A'] ∧
    islandScan 1 dataA readAT = ⟨0, 0, 0, 0, 1⟩ ∧
    CorrectOneRead 1 dataA readAT = (true, readAT, 1) ∧
    readAT ≠ ['A', 'A'] := by
  refine ⟨by decide, by decide, by decide, by decide⟩

/-- C7 (code bug): the final-assembly guard of lines 174-177 compares
seq.size() — the length of the untouched original — against read_size,
which was defined as seq.size(); the test can never fire.  Handing the
final assembly a phase-2 sequence of the wrong length therefore does NOT
make it return false and reject the correction: it returns true and
proceeds. -/
theorem claim_C7_code_eval :
    finishRead 2 ['A', 'T'] ['A'] = (true, ['A', 'T'], 0) ∧
    (['A'] : List Char).length ≠ 2 := by
  refine ⟨by decide, by decide⟩

end Hammer

namespace HammerIt

/-!
Embedding of the consensus ("center") stage of
src/assembler/src/hammer-it/main.cpp: the per-position weighted vote of
`center` (lines 48-71) and the per-cluster assignment loop of `main`
(lines 95-110).  A homopolymer k-mer is a list of (nucleotide, run-length)
pairs; the double-valued quality is modelled as a rational.  The k-mer
store behind seq_idx / push_back (kmer_data.hpp, consensus.hpp) is not in
the sources and is modelled from the spec: the store is a list of records,
looking the consensus up finds the index of a record holding that k-mer if
one exists, and otherwise a fresh record KMerStat(0, c, 1.0) (whose
changeto starts at its own index) is appended at the end; the argmax of the
score table breaks ties by lowest symbol code, then lowest run length
(`consensus`). -/

/-- One (nucleotide, run-length) position of a homopolymer k-mer. -/
structure HRun where
  nucl : Nat
  len : Nat
deriving DecidableEq

/-- One k-mer record of the hammer-it store: observation count, the k-mer,
quality, and the redirect index. -/
structure KMerStatIt where
  count : Nat
  kmer : List HRun
  qual : Rat
  changeto : Nat
deriving DecidableEq

/-- Default record (used only as the out-of-range fallback of getD). -/
def dflStat : KMerStatIt := ⟨0, [], 0, 0⟩

/-- Default cell. -/
def dflRun : HRun := ⟨0, 0⟩

/-- The score table of `center`: the score of a cell at k-mer position i is
the sum of count * (1 - quality) over the cluster members whose k-mer holds
exactly that (nucleotide, run-length) pair at position i
(`scores(k.kmer[i].nucl, k.kmer[i].len) += k.count * (1 - k.qual)`). -/
def scoreAt (data : List KMerStatIt) (cluster : List Nat) (i : Nat)
    (cell : HRun) : Rat :=
  (cluster.map (fun j =>
    let k := data.getD j dflStat
    if k.kmer.getD i dflRun = cell then (k.count : Rat) * (1 - k.qual)
    else 0)).sum

/-- The 4 x 64 score matrix cells, in lowest-symbol-then-lowest-length
order. -/
def allCells : List HRun :=
  (List.range 4).flatMap (fun nu => (List.range 64).map (fun ln => ⟨nu, ln⟩))

/-- Modelled from the spec: hammer::iontorrent::consensus (consensus.hpp is
not in the sources) returns the argmax cell of the score table, ties broken
by lowest symbol code then lowest run length (the fold keeps the earliest
maximal cell of the lexicographically ordered cell list). -/
def argmaxCell (data : List KMerStatIt) (cluster : List Nat) (i : Nat) : HRun :=
  allCells.foldl
    (fun best cell =>
      if scoreAt data cluster i best < scoreAt data cluster i cell then cell
      else best)
    ⟨0, 0⟩

/-- `center` (main.cpp lines 48-71): the consensus k-mer whose cell at every
position i in [0, hk) is the argmax of the position's score table. -/
def center (hk : Nat) (data : List KMerStatIt) (cluster : List Nat) :
    List HRun :=
  (List.range hk).map (fun i => argmaxCell data cluster i)

/-- `kmer_data[cluster[j]].changeto = idx` for one member. -/
def setChangeto (idx : Nat) (d : List KMerStatIt) (j : Nat) : List KMerStatIt :=
  d.set j { d.getD j dflStat with changeto := idx }

/-- The per-cluster body of the assignment loop (main.cpp lines 96-110):
compute the center, look it up (appending a fresh
generated-but-never-observed record when it is absent), then point every
member's changeto at the center's index.  Returns the new store and the
center's index. -/
def processCluster (hk : Nat) (data : List KMerStatIt) (cluster : List Nat) :
    List KMerStatIt × Nat :=
  let c := center hk data cluster
  let pr :=
    match List.findIdx? (fun s => s.kmer == c) data with
    | some j => (data, j)
    | none => (data ++ [(⟨0, c, 1, data.length⟩ : KMerStatIt)], data.length)
  (cluster.foldl (setChangeto pr.2) pr.1, pr.2)

/-! Small facts about the fold that rewrites the changeto fields. -/

theorem setChangeto_length (idx : Nat) (d : List KMerStatIt) (j : Nat) :
    (setChangeto idx d j).length = d.length := List.length_set ..

theorem setChangeto_getD_ne (idx : Nat) (d : List KMerStatIt) {j k : Nat}
    (h : j ≠ k) :
    (setChangeto idx d j).getD k dflStat = d.getD k dflStat := by
  unfold setChangeto
  rw [List.getD_eq_getElem?_getD, List.getElem?_set_ne h,
    ← List.getD_eq_getElem?_getD]

theorem setChangeto_getD_self (idx : Nat) (d : List KMerStatIt) {j : Nat}
    (hj : j < d.length) :
    ((setChangeto idx d j).getD j dflStat).changeto = idx := by
  unfold setChangeto
  rw [List.getD_eq_getElem?_getD, List.getElem?_set_eq_of_lt _ hj]
  rfl

theorem setChangeto_getD_kmer (idx : Nat) (d : List KMerStatIt) (j k : Nat) :
    ((setChangeto idx d j).getD k dflStat).kmer = (d.getD k dflStat).kmer := by
  by_cases hjk : j = k
  · subst hjk
    by_cases hj : j < d.length
    · unfold setChangeto
      rw [List.getD_eq_getElem?_getD, List.getElem?_set_eq_of_lt _ hj]
      rw [List.getD_eq_getElem _ _ hj]
      rfl
    · unfold setChangeto
      rw [List.set_eq_of_length_le (Nat.le_of_not_lt hj)]
  · rw [setChangeto_getD_ne idx d hjk]

theorem foldl_setChangeto_length (idx : Nat) (cl : List Nat)
    (d : List KMerStatIt) :
    (cl.foldl (setChangeto idx) d).length = d.length := by
  induction cl generalizing d with
  | nil => rfl
  | cons x cs ih =>
    simp only [List.foldl_cons]
    rw [ih, setChangeto_length]

theorem foldl_setChangeto_kmer (idx : Nat) (cl : List Nat)
    (d : List KMerStatIt) (k : Nat) :
    ((cl.foldl (setChangeto idx) d).getD k dflStat).kmer =
      (d.getD k dflStat).kmer := by
  induction cl generalizing d with
  | nil => rfl
  | cons x cs ih =>
    simp only [List.foldl_cons]
    rw [ih, setChangeto_getD_kmer]

theorem foldl_setChangeto_keeps (idx : Nat) (cl : List Nat)
    (d : List KMerStatIt) {j : Nat}
    (hj : ((d.getD j dflStat).changeto = idx)) :
    ((cl.foldl (setChangeto idx) d).getD j dflStat).changeto = idx := by
  induction cl generalizing d with
  | nil => exact hj
  | cons x cs ih =>
    simp only [List.foldl_cons]
    apply ih
    by_cases hxj : x = j
    · subst hxj
      by_cases hx : x < d.length
      · exact setChangeto_getD_self idx d hx
      · unfold setChangeto
        rw [List.set_eq_of_length_le (by simpa using Nat.le_of_not_lt hx)]
        exact hj
    · rw [setChangeto_getD_ne idx d hxj]
      exact hj

theorem foldl_setChangeto_sets (idx : Nat) (cl : List Nat)
    (d : List KMerStatIt) {j : Nat} (hmem : j ∈ cl) (hj : j < d.length) :
    ((cl.foldl (setChangeto idx) d).getD j dflStat).changeto = idx := by
  induction cl generalizing d with
  | nil => exact absurd hmem (by simp)
  | cons x cs ih =>
    simp only [List.foldl_cons]
    by_cases hmem2 : j ∈ cs
    · exact ih (d := setChangeto idx d x) hmem2 (by rw [setChangeto_length]; exact hj)
    · have hxj : x = j := by
        rcases List.mem_cons.mp hmem with h | h
        · exact h.symm
        · exact absurd h hmem2
      subst hxj
      exact foldl_setChangeto_keeps idx cs _ (setChangeto_getD_self idx d hj)

/-- The fold that implements the argmax over the score table: the result
scores at least as high as the seed and as every listed cell. -/
theorem foldl_argmax_ge (f : HRun → Rat) (cells : List HRun) :
    ∀ b0 : HRun,
      f b0 ≤ f (cells.foldl (fun best cell => if f best < f cell then cell else best) b0) ∧
      ∀ cell ∈ cells,
        f cell ≤ f (cells.foldl (fun best cell => if f best < f cell then cell else best) b0) := by
  induction cells with
  | nil =>
    intro b0
    refine ⟨le_refl _, ?_⟩
    simp
  | cons c cs ih =>
    intro b0
    simp only [List.foldl_cons]
    have hstep0 : f b0 ≤ f (if f b0 < f c then c else b0) := by
      split <;> [exact le_of_lt (by assumption); exact le_refl _]
    have hstepc : f c ≤ f (if f b0 < f c then c else b0) := by
      split
      · exact le_refl _
      · exact le_of_not_lt (by assumption)
    obtain ⟨hseed, hall⟩ := ih (if f b0 < f c then c else b0)
    refine ⟨le_trans hstep0 hseed, ?_⟩
    intro cell hcell
    rcases List.mem_cons.mp hcell with h | h
    · subst h
      exact le_trans hstepc hseed
    · exact hall cell h

/-- C8: for every store and cluster, the consensus stage computes per
position the cell maximising the cluster's count * (1 - quality) vote (the
center's i-th entry is the argmax of the score table at i — conjuncts 1 and
2), appends the consensus as a fresh record exactly when it is absent from
the store (conjunct 5), the record at the returned index holds the
consensus k-mer (conjunct 4), and every cluster member's changeto field is
set to the consensus k-mer's index (conjunct 3). -/
theorem claim_C8 (hk : Nat) (data : List KMerStatIt) (cluster : List Nat) :
    (∀ i, i < hk →
      (center hk data cluster).getD i dflRun = argmaxCell data cluster i) ∧
    (∀ i, ∀ cell ∈ allCells,
      scoreAt data cluster i cell ≤
        scoreAt data cluster i (argmaxCell data cluster i)) ∧
    (∀ j ∈ cluster, j < data.length →
      ((processCluster hk data cluster).1.getD j dflStat).changeto =
        (processCluster hk data cluster).2) ∧
    ((processCluster hk data cluster).1.getD
        (processCluster hk data cluster).2 dflStat).kmer =
      center hk data cluster ∧
    (List.findIdx? (fun s => s.kmer == center hk data cluster) data = none →
      (processCluster hk data cluster).2 = data.length ∧
      (processCluster hk data cluster).1.length = data.length + 1) := by
  refine ⟨?_, ?_, ?_, ?_, ?_⟩
  · intro i hi
    unfold center
    rw [List.getD_eq_getElem _ _ (by simpa using hi)]
    simp
  · intro i cell hcell
    exact (foldl_argmax_ge (scoreAt data cluster i) allCells ⟨0, 0⟩).2 cell hcell
  · intro j hmem hj
    unfold processCluster
    rcases hfind : List.findIdx? (fun s => s.kmer == center hk data cluster) data
      with _ | jf <;> simp only [hfind]
    · exact foldl_setChangeto_sets _ cluster _ hmem
        (by rw [List.length_append]; omega)
    · exact foldl_setChangeto_sets _ cluster _ hmem hj
  · unfold processCluster
    rcases hfind : List.findIdx? (fun s => s.kmer == center hk data cluster) data
      with _ | jf <;> simp only [hfind]
    · rw [foldl_setChangeto_kmer]
      rw [List.getD_append_right _ _ _ _ (le_refl _)]
      simp
    · rw [foldl_setChangeto_kmer]
      obtain ⟨hlt, hp, -⟩ := List.findIdx?_eq_some_iff_getElem.mp hfind
      rw [List.getD_eq_getElem _ _ hlt]
      simpa using hp
  · intro hnone
    unfold processCluster
    simp only [hnone]
    constructor
    · trivial
    · rw [foldl_setChangeto_length]
      simp

/-- A two-member store matching the spec scenario: a high-count perfect
record and a low-count noisy one sharing a cluster. -/
def dataIt2 : List KMerStatIt :=
  [⟨40, [⟨0, 1⟩], 0, 0⟩, ⟨2, [⟨3, 1⟩], 1 / 2, 1⟩]

theorem claim_C8_witness :
    ((processCluster 1 dataIt2 [0, 1]).1.getD 1 dflStat).changeto =
      (processCluster 1 dataIt2 [0, 1]).2 :=
  (claim_C8 1 dataIt2 [0, 1]).2.2.1 1 (by decide) (by decide)

end HammerIt
